import Mathlib

/-!
Verification of the Virgilio corpus reader (src/virgilio.py).

The program is a facade over a directory of 34 text files ("cantos").
We model a Python string as a list of characters (`PyStr`), a canto file as
the list of lines that `readlines()` would return (each line carrying its
terminator except possibly the last), and the corpus directory as a partial
map from canto number to file content (`none` meaning the file cannot be
opened, which the program wraps into a generic exception).  Every operation
of the class is translated into a total Lean function returning
`Except Err _`, with Python exceptions becoming `Err` values.  Loops that
may raise are translated into explicit recursions over the iterated list so
that the first raised error aborts the loop, exactly as in Python.

Python-specific behaviours that the claims depend on are modelled
faithfully:
  * `str.count` counts non-overlapping occurrences scanning left to right,
    and returns `len(s) + 1` for the empty pattern (`strCount`);
  * the truthiness test `if not num_lines` treats both `None` and `0` as
    falsy (`numFalsy`);
  * `file.readline()` past end of file returns the empty string (`readN`);
  * a Python `dict` keeps insertion order and overwrites the value of an
    existing key in place (`dictInsert`);
  * the float accumulation in `get_hell_verse_mean_len` only ever holds
    integers and performs one final division, so it is modelled exactly in
    `ℚ`; the `ZeroDivisionError` of `total / 0` becomes an explicit check;
  * the JSON serialisation of `count_words` is modelled at the level of the
    mapping it encodes: the content of `word_counts.json` after a call is
    represented by the association list that was dumped into it.
-/

deriving instance DecidableEq for Except

namespace Virgilio

/-- A Python string: a sequence of unicode code points. -/
abbrev PyStr := List Char

/-- Whitespace recognised by Python's `str.strip()` (ASCII part, which is all
the corpus operations ever strip). -/
def pyIsSpace (c : Char) : Bool :=
  c = ' ' || c = '\t' || c = '\n' || c = '\r' || c = '\x0b' || c = '\x0c'

/-- Python `str.strip()`: remove leading and trailing whitespace. -/
def pyStrip (s : PyStr) : PyStr :=
  ((s.dropWhile pyIsSpace).reverse.dropWhile pyIsSpace).reverse

/-- Python substring test `w in s`. -/
def strIn (w : PyStr) : PyStr → Bool
  | [] => w.isPrefixOf []
  | c :: rest => w.isPrefixOf (c :: rest) || strIn w rest

/-- Core loop of Python `s.count(w)` for a non-empty pattern `w`: scan left to
right, and on a match skip the whole match (non-overlapping).  The fuel
argument (instantiated with `s.length`) makes the recursion structural. -/
def strCountAux (w : PyStr) : Nat → PyStr → Nat
  | 0, _ => 0
  | _ + 1, [] => 0
  | fuel + 1, c :: rest =>
    if w.isPrefixOf (c :: rest) then
      1 + strCountAux w fuel ((c :: rest).drop w.length)
    else
      strCountAux w fuel rest

/-- Python `s.count(w)`: number of non-overlapping occurrences of `w` in `s`;
for the empty pattern Python returns `len(s) + 1`. -/
def strCount (s w : PyStr) : Nat :=
  match w with
  | [] => s.length + 1
  | _ :: _ => strCountAux w s.length s

/-- Python `"\n".join(lines)`. -/
def joinNl (lines : List PyStr) : PyStr :=
  List.intercalate ['\n'] lines

/-- Model of `[file.readline() for number in range(n)]`: the first `n` lines
are returned in order, and every `readline()` past end of file yields the
empty string. -/
def readN (lines : List PyStr) : Nat → List PyStr
  | 0 => []
  | n + 1 =>
    match lines with
    | [] => [] :: readN [] n
    | l :: rest => l :: readN rest n

/-- The not-found sentinel string returned by `get_verse_with_word` and
`get_verses_with_word`. -/
def notFoundSentinel : PyStr :=
  "We couldn".toList ++ ['\x27'] ++ "t find the word in the text.".toList

/-- The errors the program can raise.  `ioError` keeps the canto number whose
file failed to open (the Python message interpolates the file path, which is
determined by that number). -/
inductive Err : Type
  | typeError (msg : String)
  | cantoNotFound (msg : String)
  | ioError (canto : Int)
  | zeroDivisionError
deriving DecidableEq

/-- The `canto_number` argument as received from Python: either an `int` or a
value of some other type (which `isinstance(canto_number, int)` rejects). -/
inductive CantoArg : Type
  | int (n : Int)
  | notInt
deriving DecidableEq

/-- The corpus directory: file content (as the list of lines `readlines()`
returns) for each canto number, or `none` when the file cannot be opened. -/
abbrev Fs := Int → Option (List PyStr)

/-- A Python dict from words to counts, as an insertion-ordered association
list. -/
abbrev WordDict := List (PyStr × Nat)

/-- Truthiness of `num_lines` in `if not num_lines`: `None` and `0` are
falsy. -/
def numFalsy : Option Int → Bool
  | none => true
  | some m => m = 0

/-- Number of iterations of `range(num_lines)` (empty for a negative
argument). -/
def numCap : Option Int → Nat
  | none => 0
  | some m => m.toNat

/-- `Virgilio.read_canto_lines`: validate the canto number, open the file,
and return its lines, optionally stripped and optionally capped by
`num_lines`. -/
def read_canto_lines (fs : Fs) (canto_number : CantoArg)
    (num_lines : Option Int) (strip_lines : Bool) : Except Err (List PyStr) :=
  match canto_number with
  | .notInt => .error (.typeError "canto_number must be an integer.")
  | .int n =>
    if n < 1 ∨ 34 < n then
      .error (.cantoNotFound "canto_number must be between 1 and 34.")
    else
      match fs n with
      | none => .error (.ioError n)
      | some lines =>
        if strip_lines then
          if numFalsy num_lines then .ok (lines.map pyStrip)
          else .ok ((readN lines (numCap num_lines)).map pyStrip)
        else
          if numFalsy num_lines then .ok lines
          else .ok (readN lines (numCap num_lines))

/-- `Virgilio.count_verses`. -/
def count_verses (fs : Fs) (c : CantoArg) : Except Err Nat :=
  match read_canto_lines fs c none false with
  | .error e => .error e
  | .ok lines => .ok lines.length

/-- `Virgilio.count_tercets`. -/
def count_tercets (fs : Fs) (c : CantoArg) : Except Err Nat :=
  match count_verses fs c with
  | .error e => .error e
  | .ok v => .ok (v / 3)

/-- `Virgilio.count_word`. -/
def count_word (fs : Fs) (c : CantoArg) (word : PyStr) : Except Err Nat :=
  match read_canto_lines fs c none false with
  | .error e => .error e
  | .ok lines => .ok (strCount (joinNl lines) word)

/-- Loop of `Virgilio.get_verse_with_word`: first matching line, stripped,
else the sentinel. -/
def gvwAux (word : PyStr) : List PyStr → PyStr
  | [] => notFoundSentinel
  | l :: rest => if strIn word l then pyStrip l else gvwAux word rest

/-- `Virgilio.get_verse_with_word`. -/
def get_verse_with_word (fs : Fs) (c : CantoArg) (word : PyStr) :
    Except Err PyStr :=
  match read_canto_lines fs c none false with
  | .error e => .error e
  | .ok lines => .ok (gvwAux word lines)

/-- `Virgilio.get_verses_with_word`: the Python function overloads its return
type (list of lines, or the sentinel string), modelled by a sum. -/
def get_verses_with_word (fs : Fs) (c : CantoArg) (word : PyStr) :
    Except Err (List PyStr ⊕ PyStr) :=
  match read_canto_lines fs c none false with
  | .error e => .error e
  | .ok lines =>
    let lines_with_word := lines.filter (fun l => strIn word l)
    if lines_with_word = [] then .ok (.inr notFoundSentinel)
    else .ok (.inl lines_with_word)

/-- `Virgilio.get_longest_verse`: fold with a strict comparison starting from
the empty string, then strip the winner. -/
def get_longest_verse (fs : Fs) (c : CantoArg) : Except Err PyStr :=
  match read_canto_lines fs c none false with
  | .error e => .error e
  | .ok lines =>
    .ok (pyStrip (lines.foldl
      (fun longest_verse line =>
        if line.length > longest_verse.length then line else longest_verse)
      []))

/-- The canto numbers `range(1, 35)` iterated by the corpus-wide queries. -/
def cantoRange : List Int :=
  (List.range' 1 34).map (fun n : Nat => (n : Int))

/-- Loop of `Virgilio.get_longest_canto`, carrying the running best
`(canto_number, canto_length)` (both `None` before the first iteration). -/
def glcAux (fs : Fs) : List Int → Option Int × Option Nat →
    Except Err (Option Int × Option Nat)
  | [], acc => .ok acc
  | n :: rest, acc =>
    match count_verses fs (.int n) with
    | .error e => .error e
    | .ok current =>
      match acc.2 with
      | none => glcAux fs rest (some n, some current)
      | some best =>
        if current > best then glcAux fs rest (some n, some current)
        else glcAux fs rest acc

/-- `Virgilio.get_longest_canto`. -/
def get_longest_canto (fs : Fs) : Except Err (Option Int × Option Nat) :=
  glcAux fs cantoRange (none, none)

/-- Python dict assignment `d[k] = v`: overwrite in place if the key exists,
otherwise append. -/
def dictInsert (d : WordDict) (k : PyStr) (v : Nat) : WordDict :=
  if d.any (fun p => decide (p.1 = k)) then
    d.map (fun p => if p.1 = k then (k, v) else p)
  else d ++ [(k, v)]

/-- Loop of `Virgilio.count_words`: for each word re-read the canto, and
record the count when the word occurs in the joined text. -/
def cwAux (fs : Fs) (c : CantoArg) : List PyStr → WordDict →
    Except Err WordDict
  | [], d => .ok d
  | w :: rest, d =>
    match read_canto_lines fs c none false with
    | .error e => .error e
    | .ok lines =>
      let canto_string := joinNl lines
      if strIn w canto_string then
        cwAux fs c rest (dictInsert d w (strCount canto_string w))
      else cwAux fs c rest d

/-- `Virgilio.count_words`: returns the mapping together with the content
just dumped into `word_counts.json` (which is the very same mapping; the
JSON text is modelled by the mapping it encodes). -/
def count_words (fs : Fs) (c : CantoArg) (words : List PyStr) :
    Except Err (WordDict × WordDict) :=
  match cwAux fs c words [] with
  | .error e => .error e
  | .ok word_repetitions => .ok (word_repetitions, word_repetitions)

/-- Content of `word_counts.json` after a `count_words` call, given its
content before the call: the file is opened in mode `"w"` (full overwrite)
only when the loop finished without raising. -/
def count_words_file (fs : Fs) (c : CantoArg) (words : List PyStr)
    (prior : WordDict) : WordDict :=
  match count_words fs c words with
  | .error _ => prior
  | .ok r => r.2

/-- Loop of `Virgilio.get_hell_verses`, appending each canto's line list. -/
def hellVersesAux (fs : Fs) : List Int → List (List PyStr) →
    Except Err (List (List PyStr))
  | [], acc => .ok acc
  | n :: rest, acc =>
    match read_canto_lines fs (.int n) none false with
    | .error e => .error e
    | .ok lines => hellVersesAux fs rest (acc ++ [lines])

/-- `Virgilio.get_hell_verses`. -/
def get_hell_verses (fs : Fs) : Except Err (List (List PyStr)) :=
  hellVersesAux fs cantoRange []

/-- Loop of `Virgilio.count_hell_verses`, summing the verse counts. -/
def chvAux (fs : Fs) : List Int → Nat → Except Err Nat
  | [], acc => .ok acc
  | n :: rest, acc =>
    match count_verses fs (.int n) with
    | .error e => .error e
    | .ok v => chvAux fs rest (acc + v)

/-- `Virgilio.count_hell_verses`. -/
def count_hell_verses (fs : Fs) : Except Err Nat :=
  chvAux fs cantoRange 0

/-- First loop of `Virgilio.get_hell_verse_mean_len`, accumulating the
stripped length of every line (an integer-valued float, modelled in `ℚ`). -/
def mlAux (fs : Fs) : List Int → ℚ → Except Err ℚ
  | [], acc => .ok acc
  | n :: rest, acc =>
    match read_canto_lines fs (.int n) none false with
    | .error e => .error e
    | .ok lines =>
      mlAux fs rest
        (lines.foldl (fun a line => a + ((pyStrip line).length : ℚ)) acc)

/-- `Virgilio.get_hell_verse_mean_len`: total stripped length divided by
`count_hell_verses()`; Python raises `ZeroDivisionError` when the divisor is
`0`. -/
def get_hell_verse_mean_len (fs : Fs) : Except Err ℚ :=
  match mlAux fs cantoRange 0 with
  | .error e => .error e
  | .ok total_verses_length =>
    match count_hell_verses fs with
    | .error e => .error e
    | .ok cnt =>
      if cnt = 0 then .error .zeroDivisionError
      else .ok (total_verses_length / (cnt : ℚ))

/-- Validation outcome for a canto-number argument: the error that
`read_canto_lines` raises before touching any file, when there is one. -/
def badArg : CantoArg → Option Err
  | .notInt => some (.typeError "canto_number must be an integer.")
  | .int n =>
    if n < 1 ∨ 34 < n then
      some (.cantoNotFound "canto_number must be between 1 and 34.")
    else none

/-- Specification-side: `w` occurs in `s` at position `i`. -/
def occursAtB (s w : PyStr) (i : Nat) : Bool :=
  decide (i + w.length ≤ s.length) && decide ((s.drop i).take w.length = w)

/-- Specification-side: an increasing list of pairwise non-overlapping
occurrence positions of `w` in `s`. -/
def validOccsB (s w : PyStr) : List Nat → Bool
  | [] => true
  | [i] => occursAtB s w i
  | i :: j :: rest =>
    occursAtB s w i && decide (i + w.length ≤ j) && decide (i < j) &&
      validOccsB s w (j :: rest)

/-- Specification-side: the first element of maximal measure in a list. -/
def firstMaxBy {α : Type} (meas : α → Nat) : List α → Option α
  | [] => none
  | x :: xs =>
    match firstMaxBy meas xs with
    | none => some x
    | some y => if meas y > meas x then some y else some x

/-- Pure rendering of the `get_longest_canto` loop once every read is known
to succeed, with `f n` the verse count of canto `n`. -/
def glcPure (f : Int → Nat) : List Int → Option Int × Option Nat →
    Option Int × Option Nat
  | [], acc => acc
  | n :: rest, acc =>
    match acc.2 with
    | none => glcPure f rest (some n, some (f n))
    | some best =>
      if f n > best then glcPure f rest (some n, some (f n))
      else glcPure f rest acc

/-- Pure rendering of one `count_words` loop iteration. -/
def cwStep (cs : PyStr) (d : WordDict) (w : PyStr) : WordDict :=
  if strIn w cs then dictInsert d w (strCount cs w) else d

/-- Test corpus for claims about canto 3 (the round-trip corpus of the
specification, stored the way `readlines()` returns it). -/
def canto3lines : List PyStr :=
  ["Nel mezzo del cammin\n".toList, "di nostra vita\n".toList,
    "mi ritrovai".toList]

/-- Corpus containing only canto 3. -/
def fsC2 : Fs := fun n => if n = 3 then some canto3lines else none

/-- Corpus containing only canto 1, with two lines. -/
def fsW1 : Fs := fun n => if n = 1 then some ["a\n".toList, "b".toList] else none

/-- Corpus where no file can be opened. -/
def fsNone : Fs := fun _ => none

/-- Corpus where every canto file holds the single line "ab\n". -/
def fsAB : Fs := fun _ => some ["ab\n".toList]

/-! ### Basic lemmas about the primitive read -/

lemma readN_eq (lines : List PyStr) (m : Nat) :
    readN lines m = lines.take m ++ List.replicate (m - lines.length) [] := by
  induction m generalizing lines with
  | zero => simp [readN]
  | succ k ih =>
    cases lines with
    | nil => simp [readN, ih, List.replicate_succ]
    | cons l rest => simp [readN, ih, Nat.succ_sub_succ]

lemma readN_length (lines : List PyStr) (m : Nat) : (readN lines m).length = m := by
  rw [readN_eq]
  simp only [List.length_append, List.length_take, List.length_replicate]
  omega

lemma read_valid (fs : Fs) (n : Int) (lines : List PyStr)
    (h1 : 1 ≤ n) (h2 : n ≤ 34) (hfs : fs n = some lines) :
    read_canto_lines fs (.int n) none false = .ok lines := by
  simp only [read_canto_lines]
  rw [if_neg (by omega), hfs]
  rfl

lemma read_valid_cap (fs : Fs) (n : Int) (lines : List PyStr) (m : Nat)
    (h1 : 1 ≤ n) (h2 : n ≤ 34) (hfs : fs n = some lines) (hm : 1 ≤ m) :
    read_canto_lines fs (.int n) (some (m : Int)) false = .ok (readN lines m) := by
  simp only [read_canto_lines]
  rw [if_neg (by omega), hfs]
  have hf : numFalsy (some (m : Int)) = false := by
    simp only [numFalsy, decide_eq_false_iff_not]
    omega
  simp only [hf, Bool.false_eq_true, if_false, numCap, Int.toNat_natCast]

lemma badArg_read (fs : Fs) (c : CantoArg) (e : Err) (h : badArg c = some e)
    (nl : Option Int) (st : Bool) : read_canto_lines fs c nl st = .error e := by
  cases c with
  | notInt =>
    simp only [badArg, Option.some.injEq] at h
    rw [← h]; rfl
  | int n =>
    by_cases hb : n < 1 ∨ 34 < n
    · simp only [badArg, if_pos hb, Option.some.injEq] at h
      rw [← h]
      simp [read_canto_lines, hb]
    · simp [badArg, hb] at h

lemma queries_propagate (fs : Fs) (c : CantoArg) (e : Err)
    (h : read_canto_lines fs c none false = .error e) :
    count_verses fs c = .error e ∧
    count_tercets fs c = .error e ∧
    (∀ w, count_word fs c w = .error e) ∧
    (∀ w, get_verse_with_word fs c w = .error e) ∧
    (∀ w, get_verses_with_word fs c w = .error e) ∧
    get_longest_verse fs c = .error e ∧
    (∀ ws, ws ≠ [] → count_words fs c ws = .error e) := by
  have hv : count_verses fs c = .error e := by simp [count_verses, h]
  refine ⟨hv, ?_, ?_, ?_, ?_, ?_, ?_⟩
  · simp [count_tercets, hv]
  · intro w; simp [count_word, h]
  · intro w; simp [get_verse_with_word, h]
  · intro w; simp [get_verses_with_word, h]
  · simp [get_longest_verse, h]
  · intro ws hws
    cases ws with
    | nil => exact absurd rfl hws
    | cons w rest => simp [count_words, cwAux, h]

/-! ### Claims C1, C2, C3, C10 -/

/-- Claim C10: passing `max_lines = 0` behaves exactly like leaving it unset
(the `if not num_lines` falsiness test), so the complete list of the canto's
lines is returned, not an empty list.  The first part holds for every
stripping mode and every corpus. -/
theorem C10_zero_cap_reads_all (fs : Fs) :
    (∀ c st, read_canto_lines fs c (some 0) st = read_canto_lines fs c none st) ∧
    (∀ (n : Int) (lines : List PyStr), 1 ≤ n → n ≤ 34 → fs n = some lines →
      read_canto_lines fs (.int n) (some 0) false = .ok lines) := by
  constructor
  · intro c st
    cases c with
    | notInt => rfl
    | int n =>
      by_cases hb : n < 1 ∨ 34 < n
      · simp only [read_canto_lines, if_pos hb]
      · simp only [read_canto_lines, if_neg hb]
        cases hfs : fs n with
        | none => rfl
        | some lines => cases st <;> rfl
  · intro n lines h1 h2 hfs
    simp only [read_canto_lines]
    rw [if_neg (by omega), hfs]
    rfl

/-- Witness for C10 at a concrete two-line corpus. -/
theorem C10_zero_cap_reads_all_witness :
    read_canto_lines fsW1 (.int 1) (some 0) false =
      .ok ["a\n".toList, "b".toList] :=
  (C10_zero_cap_reads_all fsW1).2 1 ["a\n".toList, "b".toList]
    (by decide) (by decide) (by decide)

/-- Counterexample to claim C1 as stated: with `max_lines = 0` the function
does not return a list of `0` elements; the falsiness test ignores the cap
and the whole two-line file is returned. -/
theorem C1_counterexample :
    read_canto_lines fsW1 (.int 1) (some 0) false =
      .ok ["a\n".toList, "b".toList] ∧
    read_canto_lines fsW1 (.int 1) (some 0) false ≠ .ok [] := by
  exact ⟨by decide, by decide⟩

/-- Claim C1 (amended: the cap must be positive; `max_lines = 0` is treated
as unset): for a valid canto number and a positive cap `m`, the result is
exactly the first `min m (number of lines)` lines in file order, padded with
empty strings up to length `m`. -/
theorem C1_read_verses_cap (fs : Fs) (n : Int) (lines : List PyStr) (m : Nat)
    (h1 : 1 ≤ n) (h2 : n ≤ 34) (hfs : fs n = some lines) (hm : 1 ≤ m) :
    read_canto_lines fs (.int n) (some (m : Int)) false =
      .ok (lines.take m ++ List.replicate (m - lines.length) []) ∧
    (lines.take m ++ List.replicate (m - lines.length) ([] : PyStr)).length = m := by
  constructor
  · rw [read_valid_cap fs n lines m h1 h2 hfs hm, readN_eq]
  · simp only [List.length_append, List.length_take, List.length_replicate]
    omega

/-- Witness for C1 (amended) on a two-line file with a cap of three. -/
theorem C1_read_verses_cap_witness :
    read_canto_lines fsW1 (.int 1) (some (3 : Nat)) false =
      .ok ["a\n".toList, "b".toList, []] := by
  have h := (C1_read_verses_cap fsW1 1 ["a\n".toList, "b".toList] 3
    (by decide) (by decide) (by decide) (by decide)).1
  simpa using h

/-- Counterexample to claim C2 as stated: on the round-trip corpus,
`count_word(3, "mi")` returns 2, not 1 — "mi" is a substring of "cammin"
(characters 3 and 4), so it matches there as well as in "mi ritrovai". -/
theorem C2_counterexample :
    count_word fsC2 (.int 3) ("mi".toList) = .ok 2 ∧
    count_word fsC2 (.int 3) ("mi".toList) ≠ .ok 1 := by
  exact ⟨by decide, by decide⟩

/-- Claim C2 (amended: the count for "mi" is 2, because "mi" does occur
inside "cammin"; the count for "ta" is 1, matching inside "vita"). -/
theorem C2_count_word_examples :
    count_word fsC2 (.int 3) ("mi".toList) = .ok 2 ∧
    count_word fsC2 (.int 3) ("ta".toList) = .ok 1 := by
  exact ⟨by decide, by decide⟩

/-- Claim C3 (amended: `count_words` called with an empty words list never
reaches the validation, returns the empty mapping and overwrites the export
file with it; every other query, and `count_words` with a non-empty list,
fails as the claim states).  The statement is universally quantified over
the corpus `fs`, so the error is raised before any file is consulted. -/
theorem C3_validation_errors (fs : Fs) :
    (∀ nl st, read_canto_lines fs .notInt nl st =
      .error (.typeError "canto_number must be an integer.")) ∧
    (∀ (n : Int) nl st, n < 1 ∨ 34 < n →
      read_canto_lines fs (.int n) nl st =
        .error (.cantoNotFound "canto_number must be between 1 and 34.")) ∧
    (∀ (c : CantoArg) (e : Err), badArg c = some e →
      count_verses fs c = .error e ∧
      count_tercets fs c = .error e ∧
      (∀ w, count_word fs c w = .error e) ∧
      (∀ w, get_verse_with_word fs c w = .error e) ∧
      (∀ w, get_verses_with_word fs c w = .error e) ∧
      get_longest_verse fs c = .error e ∧
      (∀ ws, ws ≠ [] → count_words fs c ws = .error e) ∧
      count_words fs c [] = .ok ([], []) ∧
      (∀ prior, count_words_file fs c [] prior = [])) := by
  refine ⟨fun nl st => rfl, ?_, ?_⟩
  · intro n nl st h
    simp [read_canto_lines, h]
  · intro c e h
    have hr := badArg_read fs c e h none false
    obtain ⟨p1, p2, p3, p4, p5, p6, p7⟩ := queries_propagate fs c e hr
    exact ⟨p1, p2, p3, p4, p5, p6, p7, rfl, fun prior => rfl⟩

/-- Witness for C3 (amended): concrete failures for a non-integer argument
and for canto number 0. -/
theorem C3_validation_errors_witness :
    count_verses fsNone .notInt =
      .error (.typeError "canto_number must be an integer.") ∧
    count_verses fsNone (.int 0) =
      .error (.cantoNotFound "canto_number must be between 1 and 34.") := by
  refine ⟨((C3_validation_errors fsNone).2.2 .notInt
    (.typeError "canto_number must be an integer.") (by decide)).1, ?_⟩
  exact ((C3_validation_errors fsNone).2.2 (.int 0)
    (.cantoNotFound "canto_number must be between 1 and 34.") (by decide)).1

/-- Counterexample to claim C3 as stated: `count_words` does take a canto
number, yet with an empty words list it raises nothing at all on a
non-integer canto number — the read (and hence the validation) sits inside
the per-word loop. -/
theorem C3_counterexample :
    count_words fsNone .notInt [] = .ok ([], []) ∧
    count_words fsNone .notInt [] ≠
      .error (.typeError "canto_number must be an integer.") := by
  exact ⟨by decide, by decide⟩

/-! ### Claim C4: errors propagate unchanged through every derived query -/

lemma cantoRange_decomp (k : Nat) (h1 : 1 ≤ k) (h2 : k ≤ 34) :
    cantoRange = ((List.range' 1 (k - 1)).map (fun n : Nat => (n : Int))) ++
      ((k : Int) :: ((List.range' (k + 1) (34 - k)).map (fun n : Nat => (n : Int)))) := by
  have happ := List.range'_append 1 (k - 1) (35 - k) 1
  have e1 : 1 + 1 * (k - 1) = k := by omega
  have e2 : 35 - k + (k - 1) = 34 := by omega
  rw [e1, e2] at happ
  have e3 : 35 - k = 34 - k + 1 := by omega
  rw [e3, List.range'_succ] at happ
  rw [cantoRange, ← happ, List.map_append, List.map_cons]

lemma chvAux_first_error (fs : Fs) (k : Int) (e : Err)
    (herr : count_verses fs (.int k) = .error e) :
    ∀ la : List Int, (∀ j ∈ la, ∃ v, count_verses fs (.int j) = .ok v) →
    ∀ (lb : List Int) (acc : Nat), chvAux fs (la ++ k :: lb) acc = .error e := by
  intro la
  induction la with
  | nil => intro _ lb acc; simp [chvAux, herr]
  | cons j la ih =>
    intro hok lb acc
    obtain ⟨v, hv⟩ := hok j (List.mem_cons_self _ _)
    simp only [List.cons_append, chvAux, hv]
    exact ih (fun x hx => hok x (List.mem_cons_of_mem _ hx)) lb _

lemma hellVersesAux_first_error (fs : Fs) (k : Int) (e : Err)
    (herr : read_canto_lines fs (.int k) none false = .error e) :
    ∀ la : List Int,
      (∀ j ∈ la, ∃ ls, read_canto_lines fs (.int j) none false = .ok ls) →
    ∀ (lb : List Int) (acc : List (List PyStr)),
      hellVersesAux fs (la ++ k :: lb) acc = .error e := by
  intro la
  induction la with
  | nil => intro _ lb acc; simp [hellVersesAux, herr]
  | cons j la ih =>
    intro hok lb acc
    obtain ⟨ls, hls⟩ := hok j (List.mem_cons_self _ _)
    simp only [List.cons_append, hellVersesAux, hls]
    exact ih (fun x hx => hok x (List.mem_cons_of_mem _ hx)) lb _

lemma mlAux_first_error (fs : Fs) (k : Int) (e : Err)
    (herr : read_canto_lines fs (.int k) none false = .error e) :
    ∀ la : List Int,
      (∀ j ∈ la, ∃ ls, read_canto_lines fs (.int j) none false = .ok ls) →
    ∀ (lb : List Int) (acc : ℚ), mlAux fs (la ++ k :: lb) acc = .error e := by
  intro la
  induction la with
  | nil => intro _ lb acc; simp [mlAux, herr]
  | cons j la ih =>
    intro hok lb acc
    obtain ⟨ls, hls⟩ := hok j (List.mem_cons_self _ _)
    simp only [List.cons_append, mlAux, hls]
    exact ih (fun x hx => hok x (List.mem_cons_of_mem _ hx)) lb _

lemma glcAux_first_error (fs : Fs) (k : Int) (e : Err)
    (herr : count_verses fs (.int k) = .error e) :
    ∀ la : List Int, (∀ j ∈ la, ∃ v, count_verses fs (.int j) = .ok v) →
    ∀ (lb : List Int) (acc : Option Int × Option Nat),
      glcAux fs (la ++ k :: lb) acc = .error e := by
  intro la
  induction la with
  | nil => intro _ lb acc; simp [glcAux, herr]
  | cons j la ih =>
    intro hok lb acc
    obtain ⟨v, hv⟩ := hok j (List.mem_cons_self _ _)
    have ih2 := ih (fun x hx => hok x (List.mem_cons_of_mem _ hx)) lb
    simp only [List.cons_append, glcAux, hv]
    cases hacc : acc.2 with
    | none => exact ih2 _
    | some best =>
      by_cases hc : v > best
      · simp only [if_pos hc]; exact ih2 _
      · simp only [if_neg hc]; exact ih2 _

/-- Claim C4: whenever the underlying `read_canto_lines` call raises an
error, the derived query raises exactly that same error.  For the per-canto
queries this is stated directly; for the corpus-wide queries (which iterate
cantos 1..34 in ascending order) it is stated for the first canto `k` whose
read fails, all earlier reads succeeding.  `count_words` only performs the
read when the words list is non-empty. -/
theorem C4_error_propagation (fs : Fs) :
    (∀ (c : CantoArg) (e : Err), read_canto_lines fs c none false = .error e →
      count_verses fs c = .error e ∧
      count_tercets fs c = .error e ∧
      (∀ w, count_word fs c w = .error e) ∧
      (∀ w, get_verse_with_word fs c w = .error e) ∧
      (∀ w, get_verses_with_word fs c w = .error e) ∧
      get_longest_verse fs c = .error e ∧
      (∀ ws, ws ≠ [] → count_words fs c ws = .error e)) ∧
    (∀ (k : Nat) (e : Err), 1 ≤ k → k ≤ 34 →
      (∀ j : Nat, 1 ≤ j → j < k →
        ∃ ls, read_canto_lines fs (.int (j : Int)) none false = .ok ls) →
      read_canto_lines fs (.int (k : Int)) none false = .error e →
      get_longest_canto fs = .error e ∧
      get_hell_verses fs = .error e ∧
      count_hell_verses fs = .error e ∧
      get_hell_verse_mean_len fs = .error e) := by
  refine ⟨fun c e h => queries_propagate fs c e h, ?_⟩
  intro k e h1 h2 hok herr
  have hdec := cantoRange_decomp k h1 h2
  have hokInt : ∀ j ∈ (List.range' 1 (k - 1)).map (fun n : Nat => (n : Int)),
      ∃ ls, read_canto_lines fs (.int j) none false = .ok ls := by
    intro j hj
    obtain ⟨jn, hjn, rfl⟩ := List.mem_map.mp hj
    have hmem := List.mem_range'_1.mp hjn
    exact hok jn hmem.1 (by omega)
  have hokCv : ∀ j ∈ (List.range' 1 (k - 1)).map (fun n : Nat => (n : Int)),
      ∃ v, count_verses fs (.int j) = .ok v := by
    intro j hj
    obtain ⟨ls, hls⟩ := hokInt j hj
    exact ⟨ls.length, by simp [count_verses, hls]⟩
  have herrCv : count_verses fs (.int (k : Int)) = .error e := by
    simp [count_verses, herr]
  have hml : mlAux fs cantoRange 0 = .error e := by
    rw [hdec]
    exact mlAux_first_error fs _ e herr _ hokInt _ _
  refine ⟨?_, ?_, ?_, ?_⟩
  · rw [get_longest_canto, hdec]
    exact glcAux_first_error fs _ e herrCv _ hokCv _ _
  · rw [get_hell_verses, hdec]
    exact hellVersesAux_first_error fs _ e herr _ hokInt _ _
  · rw [count_hell_verses, hdec]
    exact chvAux_first_error fs _ e herrCv _ hokCv _ _
  · simp [get_hell_verse_mean_len, hml]

/-- Witness for C4 at a corpus with no readable files: the wrapped open
error of canto 1 comes out of the corpus-wide queries unchanged, and the
validation error comes out of a per-canto query unchanged. -/
theorem C4_error_propagation_witness :
    count_tercets fsNone .notInt =
      .error (.typeError "canto_number must be an integer.") ∧
    get_hell_verses fsNone = .error (.ioError 1) := by
  constructor
  · exact ((C4_error_propagation fsNone).1 .notInt
      (.typeError "canto_number must be an integer.") (by decide)).2.1
  · exact ((C4_error_propagation fsNone).2 1 (.ioError 1) (by decide) (by decide)
      (fun j hj1 hj2 => absurd hj2 (by omega)) (by decide)).2.1

/-! ### First-maximum characterisation, for C7 and C8 -/

lemma firstMaxBy_eq_none {α : Type} (meas : α → Nat) (l : List α) :
    firstMaxBy meas l = none ↔ l = [] := by
  cases l with
  | nil => simp [firstMaxBy]
  | cons x xs =>
    simp only [firstMaxBy]
    cases firstMaxBy meas xs with
    | none => simp
    | some y => by_cases h : meas y > meas x <;> simp [h]

lemma foldl_max_eq {α : Type} (meas : α → Nat) :
    ∀ (l : List α) (a : α),
      l.foldl (fun acc x => if meas x > meas acc then x else acc) a =
        (match firstMaxBy meas l with
          | none => a
          | some m => if meas m > meas a then m else a) := by
  intro l
  induction l with
  | nil => intro a; rfl
  | cons x xs ih =>
    intro a
    rw [List.foldl_cons, ih]
    simp only [firstMaxBy]
    cases hm : firstMaxBy meas xs with
    | none => rfl
    | some y =>
      by_cases hyx : meas y > meas x
      · simp only [if_pos hyx]
        split_ifs <;> first | rfl | omega
      · simp only [if_neg hyx]
        split_ifs <;> first | rfl | omega

lemma firstMaxBy_spec {α : Type} (meas : α → Nat) :
    ∀ (l : List α) (m : α), firstMaxBy meas l = some m →
      ∃ (i : Nat) (hi : i < l.length), l.get ⟨i, hi⟩ = m ∧
        (∀ (j : Nat) (hj : j < l.length), meas (l.get ⟨j, hj⟩) ≤ meas m) ∧
        (∀ (j : Nat) (hj : j < l.length), j < i → meas (l.get ⟨j, hj⟩) < meas m) := by
  intro l
  induction l with
  | nil => intro m h; simp [firstMaxBy] at h
  | cons x xs ih =>
    intro m h
    simp only [firstMaxBy] at h
    cases hm : firstMaxBy meas xs with
    | none =>
      rw [hm] at h
      have hnil : xs = [] := (firstMaxBy_eq_none meas xs).mp hm
      subst hnil
      have hx : x = m := by simpa using h
      subst hx
      refine ⟨0, by simp, rfl, ?_, ?_⟩
      · intro j hj
        have hj0 : j = 0 := by simpa using Nat.lt_one_iff.mp (by simpa using hj)
        subst hj0
        exact le_refl _
      · intro j hj hlt
        omega
    | some y =>
      rw [hm] at h
      obtain ⟨i, hi, hget, hmax, hstrict⟩ := ih y hm
      by_cases hc : meas y > meas x
      · have hy : y = m := by simpa [hc] using h
        subst hy
        refine ⟨i + 1, by simpa using Nat.succ_lt_succ hi, ?_, ?_, ?_⟩
        · simpa [List.get_cons_succ] using hget
        · intro j hj
          cases j with
          | zero => simpa [List.get_cons_zero] using le_of_lt hc
          | succ jj =>
            have hjj : jj < xs.length := by simpa using hj
            simpa [List.get_cons_succ] using hmax jj hjj
        · intro j hj hlt
          cases j with
          | zero => simpa [List.get_cons_zero] using hc
          | succ jj =>
            have hjj : jj < xs.length := by simpa using hj
            simpa [List.get_cons_succ] using hstrict jj hjj (by omega)
      · have hx : x = m := by simpa [hc] using h
        subst hx
        refine ⟨0, by simp, rfl, ?_, ?_⟩
        · intro j hj
          cases j with
          | zero => exact le_refl _
          | succ jj =>
            have hjj : jj < xs.length := by simpa using hj
            have h1 := hmax jj hjj
            have h2 : meas ((x :: xs).get ⟨jj + 1, hj⟩) = meas (xs.get ⟨jj, hjj⟩) := by
              rw [List.get_cons_succ]
            omega
        · intro j hj hlt
          omega

/-- Claim C7: `get_longest_verse` returns, stripped, the raw line of maximal
raw length; ties keep the first occurrence in file order (strict `>`), and a
canto with zero verses yields the empty string. -/
theorem C7_get_longest_verse (fs : Fs) (c : CantoArg) (lines : List PyStr)
    (h : read_canto_lines fs c none false = .ok lines) :
    (lines = [] → get_longest_verse fs c = .ok []) ∧
    (lines ≠ [] → ∃ (i : Nat) (hi : i < lines.length),
      get_longest_verse fs c = .ok (pyStrip (lines.get ⟨i, hi⟩)) ∧
      (∀ (j : Nat) (hj : j < lines.length),
        (lines.get ⟨j, hj⟩).length ≤ (lines.get ⟨i, hi⟩).length) ∧
      (∀ (j : Nat) (hj : j < lines.length), j < i →
        (lines.get ⟨j, hj⟩).length < (lines.get ⟨i, hi⟩).length)) := by
  have hres : get_longest_verse fs c =
      .ok (pyStrip (lines.foldl
        (fun acc l => if l.length > acc.length then l else acc) [])) := by
    simp [get_longest_verse, h]
  constructor
  · intro hnil
    subst hnil
    simpa using hres
  · intro hne
    have hfold := foldl_max_eq List.length lines ([] : PyStr)
    cases hm : firstMaxBy List.length lines with
    | none => exact absurd ((firstMaxBy_eq_none _ lines).mp hm) hne
    | some m =>
      obtain ⟨i, hi, hget, hmax, hstrict⟩ := firstMaxBy_spec List.length lines m hm
      rw [hm] at hfold
      have hcase : lines.foldl
          (fun acc l => if l.length > acc.length then l else acc) [] = m := by
        rw [hfold]
        by_cases hlen : m.length > 0
        · simpa using hlen
        · have hmn : m = [] := List.eq_nil_of_length_eq_zero (by omega)
          simp [hmn]
      refine ⟨i, hi, ?_, ?_, ?_⟩
      · rw [hres, hcase, hget]
      · intro j hj
        rw [hget]
        exact hmax j hj
      · intro j hj hlt
        rw [hget]
        exact hstrict j hj hlt

/-- Witness for C7 on the canto-3 corpus: the first line is the unique
longest one. -/
theorem C7_get_longest_verse_witness :
    ∃ (i : Nat) (hi : i < canto3lines.length),
      get_longest_verse fsC2 (.int 3) = .ok (pyStrip (canto3lines.get ⟨i, hi⟩)) ∧
      (∀ (j : Nat) (hj : j < canto3lines.length),
        (canto3lines.get ⟨j, hj⟩).length ≤ (canto3lines.get ⟨i, hi⟩).length) ∧
      (∀ (j : Nat) (hj : j < canto3lines.length), j < i →
        (canto3lines.get ⟨j, hj⟩).length < (canto3lines.get ⟨i, hi⟩).length) :=
  (C7_get_longest_verse fsC2 (.int 3) canto3lines (by decide)).2 (by decide)

/-! ### Claim C8: get_longest_canto -/

lemma cantoRange_length : cantoRange.length = 34 := by
  simp [cantoRange]

lemma cantoRange_get (j : Nat) (hj : j < cantoRange.length) :
    cantoRange.get ⟨j, hj⟩ = (j : Int) + 1 := by
  simp only [cantoRange, List.get_eq_getElem, List.getElem_map,
    List.getElem_range'_1]
  omega

lemma glcAux_ok (fs : Fs) (f : Int → Nat) :
    ∀ l : List Int, (∀ n ∈ l, count_verses fs (.int n) = .ok (f n)) →
    ∀ acc, glcAux fs l acc = .ok (glcPure f l acc) := by
  intro l
  induction l with
  | nil => intro _ acc; rfl
  | cons n rest ih =>
    intro hok acc
    have hn := hok n (List.mem_cons_self _ _)
    have ih2 := ih (fun x hx => hok x (List.mem_cons_of_mem _ hx))
    simp only [glcAux, glcPure, hn]
    cases hacc : acc.2 with
    | none => exact ih2 _
    | some best =>
      by_cases hc : f n > best
      · simp only [if_pos hc]; exact ih2 _
      · simp only [if_neg hc]; exact ih2 _

lemma glcPure_some (f : Int → Nat) :
    ∀ (l : List Int) (b : Int),
      glcPure f l (some b, some (f b)) =
        (match firstMaxBy f l with
          | none => (some b, some (f b))
          | some y =>
            if f y > f b then (some y, some (f y)) else (some b, some (f b))) := by
  intro l
  induction l with
  | nil => intro b; rfl
  | cons n rest ih =>
    intro b
    simp only [glcPure, firstMaxBy]
    by_cases hc : f n > f b
    · rw [if_pos hc, ih n]
      cases hm : firstMaxBy f rest with
      | none => simp [hc]
      | some y =>
        by_cases h2 : f y > f n <;> by_cases h3 : f y > f b <;>
          simp [h2, h3, hc] <;> omega
    · rw [if_neg hc, ih b]
      cases hm : firstMaxBy f rest with
      | none => simp [hc]
      | some y =>
        by_cases h2 : f y > f n <;> by_cases h3 : f y > f b <;>
          simp [h2, h3, hc] <;> omega

lemma glcPure_none (f : Int → Nat) (l : List Int) :
    glcPure f l (none, none) =
      (match firstMaxBy f l with
        | none => (none, none)
        | some y => (some y, some (f y))) := by
  cases l with
  | nil => rfl
  | cons n rest =>
    simp only [glcPure, firstMaxBy]
    rw [glcPure_some f rest n]
    cases hm : firstMaxBy f rest with
    | none => rfl
    | some y => by_cases h2 : f y > f n <;> simp [h2]

/-- Claim C8: `get_longest_canto` scans cantos 1..34 in ascending order and
returns the number and verse count of the canto with the most verses, the
first such canto winning ties (strict `>` against the running maximum). -/
theorem C8_get_longest_canto (fs : Fs) (L : Int → List PyStr)
    (hL : ∀ n : Int, 1 ≤ n → n ≤ 34 →
      read_canto_lines fs (.int n) none false = .ok (L n)) :
    ∃ k : Int, 1 ≤ k ∧ k ≤ 34 ∧
      get_longest_canto fs = .ok (some k, some (L k).length) ∧
      (∀ n : Int, 1 ≤ n → n ≤ 34 → (L n).length ≤ (L k).length) ∧
      (∀ n : Int, 1 ≤ n → n < k → (L n).length < (L k).length) := by
  have hcv : ∀ n ∈ cantoRange,
      count_verses fs (.int n) = .ok ((fun n => (L n).length) n) := by
    intro n hn
    obtain ⟨jn, hjn, rfl⟩ := List.mem_map.mp hn
    have hmem := List.mem_range'_1.mp hjn
    have h1 : (1 : Int) ≤ (jn : Int) := by exact_mod_cast hmem.1
    have h2 : (jn : Int) ≤ 34 := by
      have := hmem.2
      omega
    simp [count_verses, hL _ h1 h2]
  have hglc : get_longest_canto fs =
      .ok (glcPure (fun n => (L n).length) cantoRange (none, none)) := by
    rw [get_longest_canto]
    exact glcAux_ok fs _ cantoRange hcv (none, none)
  rw [glcPure_none] at hglc
  cases hm : firstMaxBy (fun n => (L n).length) cantoRange with
  | none =>
    have hnil := (firstMaxBy_eq_none _ cantoRange).mp hm
    exact absurd hnil (by decide)
  | some k =>
    rw [hm] at hglc
    obtain ⟨i, hi, hget, hmax, hstrict⟩ :=
      firstMaxBy_spec (fun n => (L n).length) cantoRange k hm
    have hkval : k = (i : Int) + 1 := by
      have hg := cantoRange_get i hi
      rw [hget] at hg
      exact hg
    have hi34 : i < 34 := by
      rw [cantoRange_length] at hi
      exact hi
    refine ⟨k, by omega, by omega, hglc, ?_, ?_⟩
    · intro n h1 h2
      have hj : (n - 1).toNat < cantoRange.length := by
        rw [cantoRange_length]
        omega
      have hgetj := cantoRange_get (n - 1).toNat hj
      have hn : (((n - 1).toNat : Int) + 1) = n := by omega
      have hle := hmax (n - 1).toNat hj
      rw [hgetj, hn] at hle
      exact hle
    · intro n h1 hlt
      have hj : (n - 1).toNat < cantoRange.length := by
        rw [cantoRange_length]
        omega
      have hgetj := cantoRange_get (n - 1).toNat hj
      have hn : (((n - 1).toNat : Int) + 1) = n := by omega
      have hlt2 : (n - 1).toNat < i := by omega
      have hlt3 := hstrict (n - 1).toNat hj hlt2
      rw [hgetj, hn] at hlt3
      exact hlt3

/-- Witness for C8 on a corpus where all 34 cantos have one verse: the
first-seen tie-break makes canto 1 win. -/
theorem C8_get_longest_canto_witness :
    get_longest_canto fsAB = .ok (some 1, some 1) := by
  obtain ⟨k, hk1, hk2, hres, hmax, hstrict⟩ :=
    C8_get_longest_canto fsAB (fun _ => ["ab\n".toList])
      (fun n h1 h2 => read_valid fsAB n _ h1 h2 rfl)
  have hk : k = 1 := by
    by_contra hne
    have h1k : (1 : Int) < k := by omega
    have := hstrict 1 (by omega) h1k
    simp at this
  subst hk
  simpa using hres

/-! ### Counting infrastructure shared by C5 and C9 -/

lemma strCountAux_fuel (a : Char) (w : PyStr) :
    ∀ f1 : Nat, ∀ (s : PyStr) (f2 : Nat), s.length ≤ f1 → s.length ≤ f2 →
      strCountAux (a :: w) f1 s = strCountAux (a :: w) f2 s := by
  intro f1
  induction f1 with
  | zero =>
    intro s f2 h1 h2
    obtain rfl : s = [] := List.eq_nil_of_length_eq_zero (by omega)
    cases f2 <;> rfl
  | succ g ih =>
    intro s f2 h1 h2
    cases s with
    | nil => cases f2 <;> rfl
    | cons c rest =>
      cases f2 with
      | zero =>
        simp only [List.length_cons] at h2
        omega
      | succ g2 =>
        simp only [strCountAux]
        by_cases hp : (a :: w).isPrefixOf (c :: rest) = true
        · rw [if_pos hp, if_pos hp]
          have hd1 : ((c :: rest).drop (a :: w).length).length ≤ g := by
            simp only [List.length_drop, List.length_cons] at *
            omega
          have hd2 : ((c :: rest).drop (a :: w).length).length ≤ g2 := by
            simp only [List.length_drop, List.length_cons] at *
            omega
          rw [ih _ _ hd1 hd2]
        · rw [if_neg hp, if_neg hp]
          have hr1 : rest.length ≤ g := by
            simp only [List.length_cons] at h1
            omega
          have hr2 : rest.length ≤ g2 := by
            simp only [List.length_cons] at h2
            omega
          rw [ih _ _ hr1 hr2]

lemma strCount_cons_pos (a : Char) (w : PyStr) (c : Char) (rest : PyStr)
    (hp : (a :: w).isPrefixOf (c :: rest) = true) :
    strCount (c :: rest) (a :: w) =
      1 + strCount ((c :: rest).drop (a :: w).length) (a :: w) := by
  show strCountAux (a :: w) (c :: rest).length (c :: rest) =
    1 + strCountAux (a :: w) ((c :: rest).drop (a :: w).length).length
      ((c :: rest).drop (a :: w).length)
  simp only [List.length_cons, strCountAux, if_pos hp]
  congr 1
  apply strCountAux_fuel
  · simp only [List.length_drop, List.length_cons]
    omega
  · exact le_refl _

lemma strCount_cons_neg (a : Char) (w : PyStr) (c : Char) (rest : PyStr)
    (hp : ¬ (a :: w).isPrefixOf (c :: rest) = true) :
    strCount (c :: rest) (a :: w) = strCount rest (a :: w) := by
  show strCountAux (a :: w) (c :: rest).length (c :: rest) =
    strCountAux (a :: w) rest.length rest
  simp only [List.length_cons, strCountAux, if_neg hp]

lemma strIn_nil_word (s : PyStr) : strIn [] s = true := by
  cases s <;> rfl

lemma strIn_iff_count_pos (w s : PyStr) : strIn w s = true ↔ 1 ≤ strCount s w := by
  cases w with
  | nil =>
    simp only [strIn_nil_word, strCount, true_iff]
    omega
  | cons a w2 =>
    induction s with
    | nil =>
      constructor
      · intro h
        exact absurd h (by simp [strIn, List.isPrefixOf])
      · intro h
        exact absurd h (by simp [strCount, strCountAux])
    | cons c rest ih =>
      by_cases hp : (a :: w2).isPrefixOf (c :: rest) = true
      · rw [strCount_cons_pos a w2 c rest hp]
        simp only [strIn, hp, Bool.true_or, true_iff]
        omega
      · rw [strCount_cons_neg a w2 c rest hp]
        simp only [strIn, Bool.or_eq_true] at *
        constructor
        · rintro (h | h)
          · exact absurd h hp
          · exact ih.mp h
        · intro h
          exact Or.inr (ih.mpr h)

/-! ### Claim C5: count_words -/

lemma dictInsert_keys_nodup (d : WordDict) (k : PyStr) (v : Nat)
    (hd : (d.map Prod.fst).Nodup) : ((dictInsert d k v).map Prod.fst).Nodup := by
  unfold dictInsert
  by_cases hany : d.any (fun p => decide (p.1 = k)) = true
  · rw [if_pos hany]
    have hkeys : (d.map (fun p => if p.1 = k then (k, v) else p)).map Prod.fst =
        d.map Prod.fst := by
      rw [List.map_map]
      apply List.map_congr_left
      intro p _
      by_cases h : p.1 = k
      · simp [Function.comp, h]
      · simp [Function.comp, h]
    rw [hkeys]
    exact hd
  · rw [if_neg hany]
    have hk : k ∉ d.map Prod.fst := by
      intro hmem
      obtain ⟨p, hp, hpk⟩ := List.mem_map.mp hmem
      exact hany (List.any_eq_true.mpr ⟨p, hp, by simp [hpk]⟩)
    rw [List.map_append]
    simp [List.nodup_append, hd, hk, List.disjoint_singleton]

lemma dictInsert_mem (d : WordDict) (k : PyStr) (v : Nat) (x : PyStr) (c : Nat) :
    ((x, c) ∈ dictInsert d k v) ↔ ((x = k ∧ c = v) ∨ ((x, c) ∈ d ∧ x ≠ k)) := by
  unfold dictInsert
  by_cases hany : d.any (fun p => decide (p.1 = k)) = true
  · rw [if_pos hany]
    obtain ⟨q, hq, hqk⟩ := List.any_eq_true.mp hany
    have hqk2 : q.1 = k := of_decide_eq_true hqk
    constructor
    · intro hmem
      obtain ⟨p, hp, hpe⟩ := List.mem_map.mp hmem
      by_cases h : p.1 = k
      · rw [if_pos h] at hpe
        left
        exact ⟨congrArg Prod.fst hpe.symm, congrArg Prod.snd hpe.symm⟩
      · rw [if_neg h] at hpe
        right
        subst hpe
        exact ⟨hp, h⟩
    · rintro (⟨rfl, rfl⟩ | ⟨hmem, hne⟩)
      · exact List.mem_map.mpr ⟨q, hq, by rw [if_pos hqk2]⟩
      · exact List.mem_map.mpr ⟨(x, c), hmem, by rw [if_neg hne]⟩
  · rw [if_neg hany]
    have hnk : ∀ p ∈ d, p.1 ≠ k := by
      intro p hp hpk
      exact hany (List.any_eq_true.mpr ⟨p, hp, by simp [hpk]⟩)
    rw [List.mem_append]
    constructor
    · rintro (hmem | hmem)
      · exact Or.inr ⟨hmem, hnk _ hmem⟩
      · left
        have hpe : (x, c) = (k, v) := by simpa using hmem
        exact ⟨congrArg Prod.fst hpe, congrArg Prod.snd hpe⟩
    · rintro (⟨rfl, rfl⟩ | ⟨hmem, _⟩)
      · simp
      · exact Or.inl hmem

lemma cwFold_spec (cs : PyStr) :
    ∀ (ws : List PyStr) (d : WordDict) (S : PyStr → Prop),
      ((d.map Prod.fst).Nodup ∧
        ∀ x c, ((x, c) ∈ d ↔ (S x ∧ strIn x cs = true ∧ c = strCount cs x))) →
      ((ws.foldl (cwStep cs) d).map Prod.fst).Nodup ∧
        ∀ x c, ((x, c) ∈ ws.foldl (cwStep cs) d ↔
          ((S x ∨ x ∈ ws) ∧ strIn x cs = true ∧ c = strCount cs x)) := by
  intro ws
  induction ws with
  | nil =>
    rintro d S ⟨hn, hmem⟩
    refine ⟨hn, ?_⟩
    intro x c
    rw [List.foldl_nil, hmem x c]
    simp
  | cons w ws ih =>
    rintro d S ⟨hn, hmem⟩
    rw [List.foldl_cons]
    have hstep : ((cwStep cs d w).map Prod.fst).Nodup ∧
        ∀ x c, ((x, c) ∈ cwStep cs d w ↔
          ((S x ∨ x = w) ∧ strIn x cs = true ∧ c = strCount cs x)) := by
      unfold cwStep
      by_cases hin : strIn w cs = true
      · rw [if_pos hin]
        refine ⟨dictInsert_keys_nodup d w _ hn, ?_⟩
        intro x c
        rw [dictInsert_mem]
        constructor
        · rintro (⟨rfl, rfl⟩ | ⟨hmem2, _⟩)
          · exact ⟨Or.inr rfl, hin, rfl⟩
          · obtain ⟨hs, hi2, hc⟩ := (hmem x c).mp hmem2
            exact ⟨Or.inl hs, hi2, hc⟩
        · rintro ⟨hS | rfl, hi2, hc⟩
          · by_cases hxw : x = w
            · subst hxw
              exact Or.inl ⟨rfl, hc⟩
            · exact Or.inr ⟨(hmem x c).mpr ⟨hS, hi2, hc⟩, hxw⟩
          · exact Or.inl ⟨rfl, hc⟩
      · rw [if_neg hin]
        refine ⟨hn, ?_⟩
        intro x c
        rw [hmem x c]
        constructor
        · rintro ⟨hS, hi2, hc⟩
          exact ⟨Or.inl hS, hi2, hc⟩
        · rintro ⟨hS | rfl, hi2, hc⟩
          · exact ⟨hS, hi2, hc⟩
          · exact absurd hi2 hin
    have hrec := ih (cwStep cs d w) (fun x => S x ∨ x = w) hstep
    refine ⟨hrec.1, ?_⟩
    intro x c
    rw [hrec.2 x c]
    constructor
    · rintro ⟨(hS | rfl) | hws, hi2, hc⟩
      · exact ⟨Or.inl hS, hi2, hc⟩
      · exact ⟨Or.inr (List.mem_cons_self _ _), hi2, hc⟩
      · exact ⟨Or.inr (List.mem_cons_of_mem _ hws), hi2, hc⟩
    · rintro ⟨hS | hmem3, hi2, hc⟩
      · exact ⟨Or.inl (Or.inl hS), hi2, hc⟩
      · rcases List.mem_cons.mp hmem3 with rfl | hmem4
        · exact ⟨Or.inl (Or.inr rfl), hi2, hc⟩
        · exact ⟨Or.inr hmem4, hi2, hc⟩

lemma cwAux_ok (fs : Fs) (c : CantoArg) (lines : List PyStr)
    (h : read_canto_lines fs c none false = .ok lines) :
    ∀ (ws : List PyStr) (d : WordDict),
      cwAux fs c ws d = .ok (ws.foldl (cwStep (joinNl lines)) d) := by
  intro ws
  induction ws with
  | nil => intro d; rfl
  | cons w rest ih =>
    intro d
    simp only [cwAux, h, List.foldl_cons, cwStep]
    by_cases hin : strIn w (joinNl lines) = true
    · rw [if_pos hin, if_pos hin]
      exact ih _
    · rw [if_neg hin, if_neg hin]
      exact ih _

/-- Claim C5: `count_words` returns a mapping whose keys are exactly the
input words occurring at least once in the canto (duplicates merged into a
single entry), each mapped to its `count_word` count, and writes that very
mapping to `word_counts.json`, fully overwriting any prior content. -/
theorem C5_count_words (fs : Fs) (c : CantoArg) (words : List PyStr)
    (lines : List PyStr) (h : read_canto_lines fs c none false = .ok lines) :
    ∃ reps : WordDict,
      count_words fs c words = .ok (reps, reps) ∧
      (reps.map Prod.fst).Nodup ∧
      (∀ w k, ((w, k) ∈ reps ↔
        (w ∈ words ∧ 1 ≤ strCount (joinNl lines) w ∧
          k = strCount (joinNl lines) w))) ∧
      (∀ w, count_word fs c w = .ok (strCount (joinNl lines) w)) ∧
      (∀ prior, count_words_file fs c words prior = reps) := by
  have hfold := cwFold_spec (joinNl lines) words [] (fun _ => False)
    ⟨by simp, by intro x k; simp⟩
  have hcw : count_words fs c words =
      .ok (words.foldl (cwStep (joinNl lines)) [],
        words.foldl (cwStep (joinNl lines)) []) := by
    simp [count_words, cwAux_ok fs c lines h words []]
  refine ⟨words.foldl (cwStep (joinNl lines)) [], hcw, hfold.1, ?_, ?_, ?_⟩
  · intro w k
    rw [hfold.2 w k]
    simp [strIn_iff_count_pos]
  · intro w
    simp [count_word, h]
  · intro prior
    simp [count_words_file, hcw]

/-- Witness for C5 on the canto-3 corpus: "mezzo" occurs once, "assente" not
at all. -/
theorem C5_count_words_witness :
    ∃ reps : WordDict,
      count_words fsC2 (.int 3) ["mezzo".toList, "assente".toList] =
        .ok (reps, reps) ∧
      (reps.map Prod.fst).Nodup ∧
      (∀ w k, ((w, k) ∈ reps ↔
        (w ∈ ["mezzo".toList, "assente".toList] ∧
          1 ≤ strCount (joinNl canto3lines) w ∧
          k = strCount (joinNl canto3lines) w))) := by
  obtain ⟨reps, h1, h2, h3, _, _⟩ := C5_count_words fsC2 (.int 3)
    ["mezzo".toList, "assente".toList] canto3lines (by decide)
  exact ⟨reps, h1, h2, h3⟩

/-! ### Claim C6: mean verse length and division by zero -/

lemma cantoRange_bounds (n : Int) (hn : n ∈ cantoRange) : 1 ≤ n ∧ n ≤ 34 := by
  obtain ⟨jn, hjn, rfl⟩ := List.mem_map.mp hn
  have hmem := List.mem_range'_1.mp hjn
  omega

lemma chvAux_ok (fs : Fs) (f : Int → Nat) :
    ∀ l : List Int, (∀ n ∈ l, count_verses fs (.int n) = .ok (f n)) →
    ∀ acc : Nat, chvAux fs l acc = .ok (acc + (l.map f).sum) := by
  intro l
  induction l with
  | nil => intro _ acc; simp [chvAux]
  | cons n rest ih =>
    intro hok acc
    simp only [chvAux, hok n (List.mem_cons_self _ _)]
    rw [ih (fun x hx => hok x (List.mem_cons_of_mem _ hx)) (acc + f n)]
    simp only [List.map_cons, List.sum_cons]
    congr 1
    omega

lemma foldl_add_rat (g : PyStr → Nat) :
    ∀ (lines : List PyStr) (a : ℚ),
      lines.foldl (fun acc line => acc + (g line : ℚ)) a =
        a + ((lines.map g).sum : ℚ) := by
  intro lines
  induction lines with
  | nil => intro a; simp
  | cons l rest ih =>
    intro a
    rw [List.foldl_cons, ih]
    push_cast [List.map_cons, List.sum_cons]
    ring

lemma mlAux_ok (fs : Fs) (L : Int → List PyStr) :
    ∀ l : List Int,
      (∀ n ∈ l, read_canto_lines fs (.int n) none false = .ok (L n)) →
    ∀ acc : ℚ, mlAux fs l acc =
      .ok (acc + ((l.map
        (fun n => ((L n).map (fun line => (pyStrip line).length)).sum)).sum : ℚ)) := by
  intro l
  induction l with
  | nil => intro _ acc; simp [mlAux]
  | cons n rest ih =>
    intro hok acc
    simp only [mlAux, hok n (List.mem_cons_self _ _)]
    rw [foldl_add_rat (fun line => (pyStrip line).length) (L n) acc]
    rw [ih (fun x hx => hok x (List.mem_cons_of_mem _ hx))]
    congr 1
    push_cast [List.map_cons, List.sum_cons]
    ring

/-- Claim C6: `get_hell_verse_mean_len` returns the sum over cantos 1..34 of
the stripped lengths of their verses divided by `count_hell_verses()`, and
fails with the zero-division error exactly when the total verse count over
all 34 cantos is `0`. -/
theorem C6_mean_len (fs : Fs) (L : Int → List PyStr)
    (hL : ∀ n : Int, 1 ≤ n → n ≤ 34 →
      read_canto_lines fs (.int n) none false = .ok (L n)) :
    count_hell_verses fs = .ok ((cantoRange.map (fun n => (L n).length)).sum) ∧
    ((cantoRange.map (fun n => (L n).length)).sum = 0 →
      get_hell_verse_mean_len fs = .error .zeroDivisionError) ∧
    ((cantoRange.map (fun n => (L n).length)).sum ≠ 0 →
      get_hell_verse_mean_len fs =
        .ok (((cantoRange.map
            (fun n => ((L n).map (fun line => (pyStrip line).length)).sum)).sum : ℚ) /
          ((cantoRange.map (fun n => (L n).length)).sum : ℚ))) := by
  have hokR : ∀ n ∈ cantoRange,
      read_canto_lines fs (.int n) none false = .ok (L n) := by
    intro n hn
    obtain ⟨h1, h2⟩ := cantoRange_bounds n hn
    exact hL n h1 h2
  have hokCv : ∀ n ∈ cantoRange,
      count_verses fs (.int n) = .ok ((fun n => (L n).length) n) := by
    intro n hn
    simp [count_verses, hokR n hn]
  have hchv : count_hell_verses fs =
      .ok ((cantoRange.map (fun n => (L n).length)).sum) := by
    rw [count_hell_verses, chvAux_ok fs (fun n => (L n).length) cantoRange hokCv 0]
    rw [Nat.zero_add]
  have hml : mlAux fs cantoRange 0 =
      .ok (((cantoRange.map
        (fun n => ((L n).map (fun line => (pyStrip line).length)).sum)).sum : ℚ)) := by
    rw [mlAux_ok fs L cantoRange hokR 0, zero_add]
  refine ⟨hchv, ?_, ?_⟩
  · intro hz
    simp [get_hell_verse_mean_len, hml, hchv, hz]
  · intro hnz
    simp [get_hell_verse_mean_len, hml, hchv, hnz]

/-- Witness for C6 on a corpus where every canto holds one two-letter verse:
34 verses in total, so the zero-division branch is not taken and the count
is 34. -/
theorem C6_mean_len_witness :
    count_hell_verses fsAB = .ok 34 ∧
    get_hell_verse_mean_len fsAB ≠ .error .zeroDivisionError := by
  obtain ⟨h1, _, h3⟩ := C6_mean_len fsAB (fun _ => ["ab\n".toList])
    (fun n hn1 hn2 => read_valid fsAB n _ hn1 hn2 rfl)
  constructor
  · rw [h1]
    decide
  · rw [h3 (by decide)]
    simp

/-! ### Claim C9: count_word counts non-overlapping occurrences

`strCount` scans greedily left to right.  We prove that the value it
returns is exactly the greatest number of pairwise disjoint occurrences of
the pattern in the string: there is a disjoint occurrence list of that
length, and no disjoint occurrence list is longer. -/

lemma vo_tail {s w : PyStr} {i : Nat} {L : List Nat}
    (h : validOccsB s w (i :: L) = true) : validOccsB s w L = true := by
  cases L with
  | nil => rfl
  | cons j L2 =>
    simp only [validOccsB, Bool.and_eq_true] at h
    exact h.2

lemma vo_head {s w : PyStr} {i : Nat} {L : List Nat}
    (h : validOccsB s w (i :: L) = true) : occursAtB s w i = true := by
  cases L with
  | nil => simpa [validOccsB] using h
  | cons j L2 =>
    simp only [validOccsB, Bool.and_eq_true] at h
    exact h.1.1.1

lemma vo_bounds {s w : PyStr} :
    ∀ {L : List Nat} {i : Nat}, validOccsB s w (i :: L) = true →
      ∀ j ∈ L, i + w.length ≤ j ∧ i < j := by
  intro L
  induction L with
  | nil =>
    intro i _ j hj
    exact absurd hj (List.not_mem_nil j)
  | cons j2 L2 ih =>
    intro i h x hx
    simp only [validOccsB, Bool.and_eq_true, decide_eq_true_eq] at h
    rcases List.mem_cons.mp hx with rfl | hx2
    · exact ⟨h.1.1.2, h.1.2⟩
    · have hnext := ih h.2 x hx2
      have h1 := h.1.1.2
      have h2 := h.1.2
      omega

lemma vo_cons_of {s w : PyStr} {i : Nat} {M : List Nat}
    (ho : occursAtB s w i = true) (hv : validOccsB s w M = true)
    (hb : ∀ j ∈ M, i + w.length ≤ j ∧ i < j) :
    validOccsB s w (i :: M) = true := by
  cases M with
  | nil => simpa [validOccsB] using ho
  | cons j M2 =>
    have hj := hb j (List.mem_cons_self _ _)
    simp only [validOccsB, Bool.and_eq_true, decide_eq_true_eq]
    exact ⟨⟨⟨ho, hj.1⟩, hj.2⟩, hv⟩

lemma vo_mem_occurs {s w : PyStr} :
    ∀ {L : List Nat}, validOccsB s w L = true →
      ∀ i ∈ L, occursAtB s w i = true := by
  intro L
  induction L with
  | nil =>
    intro _ i hi
    exact absurd hi (List.not_mem_nil i)
  | cons j L2 ih =>
    intro h i hi
    rcases List.mem_cons.mp hi with rfl | hi2
    · exact vo_head h
    · exact ih (vo_tail h) i hi2

lemma occursAt_shift {s w : PyStr} {k i : Nat} (hw : w ≠ [])
    (h : occursAtB (s.drop k) w i = true) : occursAtB s w (i + k) = true := by
  simp only [occursAtB, Bool.and_eq_true, decide_eq_true_eq,
    List.length_drop] at h ⊢
  obtain ⟨h1, h2⟩ := h
  have hw1 : 1 ≤ w.length := List.length_pos.mpr hw
  rw [List.drop_drop, Nat.add_comm k i] at h2
  exact ⟨by omega, h2⟩

lemma occursAt_unshift {s w : PyStr} {k i : Nat} (hk : k ≤ i)
    (h : occursAtB s w i = true) : occursAtB (s.drop k) w (i - k) = true := by
  simp only [occursAtB, Bool.and_eq_true, decide_eq_true_eq,
    List.length_drop] at h ⊢
  obtain ⟨h1, h2⟩ := h
  refine ⟨by omega, ?_⟩
  rw [List.drop_drop]
  have hik : k + (i - k) = i := by omega
  rw [hik]
  exact h2

lemma vo_shift {s w : PyStr} (hw : w ≠ []) {k : Nat} :
    ∀ L, validOccsB (s.drop k) w L = true →
      validOccsB s w (L.map (fun j => j + k)) = true := by
  intro L
  induction L with
  | nil => intro _; rfl
  | cons i L2 ih =>
    intro h
    rw [List.map_cons]
    apply vo_cons_of
    · exact occursAt_shift hw (vo_head h)
    · exact ih (vo_tail h)
    · intro x hx
      obtain ⟨j, hj, rfl⟩ := List.mem_map.mp hx
      have := vo_bounds h j hj
      omega

lemma vo_unshift {s w : PyStr} {k : Nat} :
    ∀ L, validOccsB s w L = true → (∀ j ∈ L, k ≤ j) →
      validOccsB (s.drop k) w (L.map (fun j => j - k)) = true := by
  intro L
  induction L with
  | nil => intro _ _; rfl
  | cons i L2 ih =>
    intro h hge
    rw [List.map_cons]
    apply vo_cons_of
    · exact occursAt_unshift (hge i (List.mem_cons_self _ _)) (vo_head h)
    · exact ih (vo_tail h) (fun j hj => hge j (List.mem_cons_of_mem _ hj))
    · intro x hx
      obtain ⟨j, hj, rfl⟩ := List.mem_map.mp hx
      have hb := vo_bounds h j hj
      have hki := hge i (List.mem_cons_self _ _)
      omega

lemma occursAt_zero_iff (s w : PyStr) :
    occursAtB s w 0 = true ↔ w.isPrefixOf s = true := by
  simp only [occursAtB, Bool.and_eq_true, decide_eq_true_eq, Nat.zero_add,
    List.drop_zero]
  rw [List.isPrefixOf_iff_prefix]
  constructor
  · rintro ⟨hlen, htake⟩
    rw [← htake]
    exact List.take_prefix _ _
  · intro hpre
    refine ⟨List.IsPrefix.length_le hpre, ?_⟩
    exact (List.prefix_iff_eq_take.mp hpre).symm

theorem strCount_max_disjoint (a : Char) (w2 : PyStr) (s : PyStr) :
    (∃ L, validOccsB s (a :: w2) L = true ∧
      L.length = strCount s (a :: w2)) ∧
    (∀ L, validOccsB s (a :: w2) L = true →
      L.length ≤ strCount s (a :: w2)) := by
  cases s with
  | nil =>
    constructor
    · exact ⟨[], rfl, rfl⟩
    · intro L hL
      cases L with
      | nil => simp
      | cons i L2 =>
        have ho := vo_head hL
        simp [occursAtB] at ho
  | cons c rest =>
    by_cases hp : (a :: w2).isPrefixOf (c :: rest) = true
    · have hdef := strCount_cons_pos a w2 c rest hp
      have IH := strCount_max_disjoint a w2 ((c :: rest).drop (a :: w2).length)
      constructor
      · obtain ⟨L2, hv2, hl2⟩ := IH.1
        refine ⟨0 :: L2.map (fun j => j + (a :: w2).length), ?_, ?_⟩
        · apply vo_cons_of
          · exact (occursAt_zero_iff _ _).mpr hp
          · exact vo_shift (by simp) L2 hv2
          · intro x hx
            obtain ⟨j, hj, rfl⟩ := List.mem_map.mp hx
            simp only [List.length_cons]
            omega
        · simp only [List.length_cons, List.length_map, hl2, hdef]
          omega
      · intro L hL
        cases L with
        | nil => simp
        | cons i L2 =>
          have htail := vo_tail hL
          have hge : ∀ j ∈ L2, (a :: w2).length ≤ j := by
            intro j hj
            have := vo_bounds hL j hj
            omega
          have hv2 := vo_unshift L2 htail hge
          have hlen := IH.2 _ hv2
          rw [List.length_map] at hlen
          rw [hdef]
          simp only [List.length_cons] at hlen ⊢
          omega
    · have hdef := strCount_cons_neg a w2 c rest hp
      have IH := strCount_max_disjoint a w2 rest
      constructor
      · obtain ⟨L2, hv2, hl2⟩ := IH.1
        refine ⟨L2.map (fun j => j + 1), ?_, ?_⟩
        · exact vo_shift (s := c :: rest) (k := 1) (by simp) L2 hv2
        · rw [List.length_map, hl2, hdef]
      · intro L hL
        cases L with
        | nil => simp
        | cons i L2 =>
          have hi : 1 ≤ i := by
            rcases Nat.eq_zero_or_pos i with rfl | hpos
            · have ho := (occursAt_zero_iff (c :: rest) (a :: w2)).mp (vo_head hL)
              exact absurd ho hp
            · exact hpos
          have hge : ∀ j ∈ i :: L2, 1 ≤ j := by
            intro j hj
            rcases List.mem_cons.mp hj with rfl | hj2
            · exact hi
            · have := vo_bounds hL j hj2
              omega
          have hv2 := vo_unshift (s := c :: rest) (k := 1) (i :: L2) hL hge
          have hlen := IH.2 _ hv2
          rw [List.length_map] at hlen
          rw [hdef]
          simpa using hlen
termination_by s.length
decreasing_by
  · simp only [List.length_drop, List.length_cons]
    omega
  · simp only [List.length_cons]
    omega

lemma vo_chain {s w : PyStr} :
    ∀ {L : List Nat}, validOccsB s w L = true →
      List.Chain' (fun i j => i < j) L := by
  intro L
  induction L with
  | nil => intro _; exact List.chain'_nil
  | cons i L2 ih =>
    intro h
    cases L2 with
    | nil => exact List.chain'_singleton _
    | cons j L3 =>
      rw [List.chain'_cons]
      simp only [validOccsB, Bool.and_eq_true, decide_eq_true_eq] at h
      exact ⟨h.1.2, ih h.2⟩

lemma vo_nil_word_of_incr (s : PyStr) :
    ∀ L, List.Chain' (fun i j => i < j) L → (∀ i ∈ L, i ≤ s.length) →
      validOccsB s [] L = true := by
  intro L
  induction L with
  | nil => intro _ _; rfl
  | cons i L2 ih =>
    intro hch hb
    apply vo_cons_of
    · simp only [occursAtB, Bool.and_eq_true, decide_eq_true_eq,
        List.length_nil]
      refine ⟨?_, by simp⟩
      have := hb i (List.mem_cons_self _ _)
      omega
    · cases L2 with
      | nil => rfl
      | cons j L3 =>
        exact ih (List.chain'_cons.mp hch).2
          (fun x hx => hb x (List.mem_cons_of_mem _ hx))
    · intro j hj
      have hlt : i < j := by
        have hpair := List.chain'_iff_pairwise.mp hch
        exact (List.pairwise_cons.mp hpair).1 j hj
      simp only [List.length_nil]
      omega

lemma vo_range (s : PyStr) :
    validOccsB s [] (List.range (s.length + 1)) = true := by
  apply vo_nil_word_of_incr
  · exact (List.pairwise_lt_range _).chain'
  · intro i hi
    have := List.mem_range.mp hi
    omega

lemma vo_nil_word_bound (s : PyStr) (L : List Nat)
    (h : validOccsB s [] L = true) : L.length ≤ s.length + 1 := by
  have hch := vo_chain h
  have hb : ∀ i ∈ L, i ≤ s.length := by
    intro i hi
    have ho := vo_mem_occurs h i hi
    simp only [occursAtB, Bool.and_eq_true, decide_eq_true_eq] at ho
    omega
  have hnd : L.Nodup :=
    (List.chain'_iff_pairwise.mp hch).imp (fun hlt => Nat.ne_of_lt hlt)
  have hsub : L.toFinset ⊆ Finset.range (s.length + 1) := by
    intro i hi
    rw [Finset.mem_range]
    have := hb i (List.mem_toFinset.mp hi)
    omega
  calc L.length = L.toFinset.card := (List.toFinset_card_of_nodup hnd).symm
    _ ≤ (Finset.range (s.length + 1)).card := Finset.card_le_card hsub
    _ = s.length + 1 := Finset.card_range _

/-- Claim C9: `count_word` joins the canto's verses with a newline separator
and returns the number of non-overlapping occurrences of the exact
(case-sensitive) substring in the joined string: there is a list of that
many pairwise disjoint occurrence positions, and no list of pairwise
disjoint occurrence positions is longer. -/
theorem C9_count_word (fs : Fs) (c : CantoArg) (word : PyStr)
    (lines : List PyStr) (h : read_canto_lines fs c none false = .ok lines) :
    count_word fs c word = .ok (strCount (joinNl lines) word) ∧
    (∃ L, validOccsB (joinNl lines) word L = true ∧
      L.length = strCount (joinNl lines) word) ∧
    (∀ L, validOccsB (joinNl lines) word L = true →
      L.length ≤ strCount (joinNl lines) word) := by
  refine ⟨by simp [count_word, h], ?_, ?_⟩
  · cases word with
    | nil =>
      refine ⟨List.range ((joinNl lines).length + 1), vo_range _, ?_⟩
      simp [strCount]
    | cons a w2 => exact (strCount_max_disjoint a w2 (joinNl lines)).1
  · cases word with
    | nil =>
      intro L hL
      have := vo_nil_word_bound _ L hL
      simpa [strCount] using this
    | cons a w2 => exact (strCount_max_disjoint a w2 (joinNl lines)).2

/-- Witness for C9: in the two-line corpus joined as "a\nb", the word "a"
occurs exactly once. -/
theorem C9_count_word_witness :
    count_word fsW1 (.int 1) ['a'] = .ok 1 ∧
    validOccsB (joinNl ["a\n".toList, "b".toList]) ['a'] [0] = true := by
  have hmain := C9_count_word fsW1 (.int 1) ['a'] ["a\n".toList, "b".toList]
    (by decide)
  exact ⟨hmain.1.trans (by decide), by decide⟩

end Virgilio
